import Mathlib

/-!
# Verification of `iceberg-go` utils: literal sets, accessors, Avro schema translation

Shallow embedding of `src/utils.go` (package `iceberg`): the deduplicating
`literalSet` over typed literals, the positional `accessor` over structured
rows, the `nestedFieldToAvroSchema` / `structTypeToAvroPartitionSchema`
type-tree translator, and the `avroEncode` record-stream encoder control flow.
-/

set_option autoImplicit false

namespace IcebergGo

/-- Modelled from the spec: the `Literal` tagged union (the literal types are
declared outside the file under verification). Exactly these kinds: Boolean,
Int32, Int64, Float32, Float64, String, Binary (variable-length bytes), Fixed
(fixed-length bytes), Date, Time, Timestamp (no zone), TimestampTz, UUID
(16 raw bytes). Float payloads are modelled by their bit patterns as naturals;
byte payloads as lists of naturals. Immutable values, so Lean values. -/
inductive Literal : Type where
  | boolean (b : Bool)
  | int32 (n : Int)
  | int64 (n : Int)
  | float32 (bits : Nat)
  | float64 (bits : Nat)
  | string (s : String)
  | binary (bytes : List Nat)
  | fixed (bytes : List Nat)
  | date (days : Int)
  | time (micros : Int)
  | timestamp (micros : Int)
  | timestampTz (micros : Int)
  | uuid (bytes : List Nat)
deriving DecidableEq, Repr

/-- Modelled from the spec: `Literal.Equals` returns true only when both
literals share the same kind and the same payload; mismatched kinds compare
false rather than erroring, with no implicit coercion between kinds. -/
def Literal.equals : Literal → Literal → Bool
  | .boolean a, .boolean b => a = b
  | .int32 a, .int32 b => a = b
  | .int64 a, .int64 b => a = b
  | .float32 a, .float32 b => a = b
  | .float64 a, .float64 b => a = b
  | .string a, .string b => a = b
  | .binary a, .binary b => a = b
  | .fixed a, .fixed b => a = b
  | .date a, .date b => a = b
  | .time a, .time b => a = b
  | .timestamp a, .timestamp b => a = b
  | .timestampTz a, .timestampTz b => a = b
  | .uuid a, .uuid b => a = b
  | _, _ => false

/-- Go `lit.Equals(other)` where `other` may be a nil interface value:
a null comparand compares false. -/
def Literal.equalsOpt (l : Literal) : Option Literal → Bool
  | none => false
  | some m => l.equals m

/-- The key space of the Go map `literalSet = map[any]struct{ orig Literal }`.
A key is either the `uint64` output of `maphash.Bytes(lzseed, bytes)` (used for
`BinaryLiteral` and `FixedLiteral`) or the literal value itself (every other
kind, which is Go-comparable). The hash is modelled injectively by the hashed
byte content; distinct-bytes hash collisions are not modelled, while the
collision between `Binary` and `Fixed` of identical bytes (the same `uint64`
key) is captured exactly. -/
inductive SetKey : Type where
  | hashKey (bytes : List Nat)
  | litKey (lit : Literal)
deriving DecidableEq, Repr

/-- `literalSet` as an association list with Go-map insert/lookup semantics:
the entry value is `struct{ orig Literal }`, whose `orig` field is the nil
interface (`none`) for literals stored under their natural key. -/
abbrev literalSet : Type := List (SetKey × Option Literal)

/-- Go map assignment `l[k] = v`: replace the entry when the key is present,
otherwise add a new entry. -/
def mapAssign : literalSet → SetKey → Option Literal → literalSet
  | [], k, v => [(k, v)]
  | (k', v') :: rest, k, v =>
      if k' = k then (k, v) :: rest else (k', v') :: mapAssign rest k v

/-- Go map lookup `v, ok := l[k]`. -/
def mapLookup : literalSet → SetKey → Option (Option Literal)
  | [], _ => none
  | (k', v') :: rest, k => if k' = k then some v' else mapLookup rest k

/-- `literalSet.addliteral`: `FixedLiteral` and `BinaryLiteral` are stored
under the hash of their bytes with the literal kept in `orig`; every other
kind is stored under itself with a zero-value (`nil`) `orig`. -/
def literalSet.addliteral (l : literalSet) (v : Literal) : literalSet :=
  match v with
  | .fixed bytes => mapAssign l (.hashKey bytes) (some (.fixed bytes))
  | .binary bytes => mapAssign l (.hashKey bytes) (some (.binary bytes))
  | _ => mapAssign l (.litKey v) none

/-- `newLiteralSet(vals...)`: start empty and `addliteral` each seed. -/
def newLiteralSet (vals : List Literal) : literalSet :=
  vals.foldl literalSet.addliteral []

/-- `literalSet.Add(lits...)`: `addliteral` each argument. -/
def literalSet.Add (l : literalSet) (lits : List Literal) : literalSet :=
  lits.foldl literalSet.addliteral l

/-- `literalSet.Contains`: Binary and Fixed literals are looked up by byte
hash and confirmed with `lit.Equals(v.orig)`; every other kind is looked up
directly by its natural key. -/
def literalSet.Contains (l : literalSet) (lit : Literal) : Bool :=
  match lit with
  | .binary bytes =>
      match mapLookup l (.hashKey bytes) with
      | none => false
      | some orig => Literal.equalsOpt (.binary bytes) orig
  | .fixed bytes =>
      match mapLookup l (.hashKey bytes) with
      | none => false
      | some orig => Literal.equalsOpt (.fixed bytes) orig
  | _ => (mapLookup l (.litKey lit)).isSome

/-- `literalSet.Members`: for a key that is itself a literal return the key,
otherwise return the stored `orig` (a possibly-nil Go interface, hence
`Option`). -/
def literalSet.Members (l : literalSet) : List (Option Literal) :=
  l.map (fun e =>
    match e.1 with
    | .litKey k => some k
    | .hashKey _ => e.2)

/-- `literalSet.Len`: the number of map entries. -/
def literalSet.Len (l : literalSet) : Nat := l.length

/-- The literal kinds stored under a content-hash key (`BinaryLiteral` and
`FixedLiteral`); every other kind is its own map key. -/
def Literal.isByteKind : Literal → Bool
  | .binary _ => true
  | .fixed _ => true
  | _ => false

/-- Well-formedness of one map entry: a hash key stores exactly the Binary or
Fixed literal whose bytes it hashes; a natural key is a non-byte-kind literal
with a nil `orig`. -/
def entryWF : SetKey × Option Literal → Prop
  | (SetKey.hashKey bytes, v) =>
      v = some (.binary bytes) ∨ v = some (.fixed bytes)
  | (SetKey.litKey k, v) => v = none ∧ k.isByteKind = false

instance : DecidablePred entryWF := fun e => by
  rcases e with ⟨k, v⟩
  cases k with
  | hashKey bytes => exact inferInstanceAs (Decidable (_ ∨ _))
  | litKey lit => exact inferInstanceAs (Decidable (_ ∧ _))

/-- States of the Go map reachable through `newLiteralSet` / `Add`:
keys are distinct and every entry is well-formed. -/
def literalSet.WF (l : literalSet) : Prop :=
  (l.map Prod.fst).Nodup ∧ ∀ e ∈ l, entryWF e

instance (l : literalSet) : Decidable (literalSet.WF l) :=
  inferInstanceAs (Decidable (_ ∧ _))

/-! ## Structured rows and accessors -/

/-- A runtime value (Go `any`) flowing through `accessor.Get`: the nil
interface, a scalar (collapsed to one representative constructor each for a
number-like and a string-like payload), or a `structLike` row of column
values. -/
inductive Value : Type where
  | null : Value
  | int (n : Int) : Value
  | str (s : String) : Value
  | row (cells : List Value) : Value

/-- A `structLike` row: `Size` is the column count and `Get pos` the column
value; `Get` panics out of bounds, modelled by `none`. -/
def rowGet (cells : List Value) (pos : Nat) : Option Value := cells.get? pos

/-- The `accessor` struct: a position and an optional inner accessor,
with the nil inner pointer inlined as the `last` constructor. -/
inductive Accessor : Type where
  | last (pos : Nat) : Accessor
  | cons (pos : Nat) (inner : Accessor) : Accessor

/-- The accessor's own `pos` field. -/
def Accessor.pos : Accessor → Nat
  | .last p => p
  | .cons p _ => p

/-- The loop of `accessor.Get` after the initial read, given the value just
read and the accessor it was read at: while the value is non-nil and a
continuation remains, descend via `val.(structLike).Get(inner.pos)`.
`none` models a panic: an out-of-bounds column read or the type assertion
`val.(structLike)` failing on a non-nil, non-row value. -/
def Accessor.getLoop : Accessor → Value → Option Value
  | .last _, v => some v
  | .cons _ _, Value.null => some Value.null
  | .cons _ inner, Value.row cells =>
      match rowGet cells inner.pos with
      | none => none
      | some v' => inner.getLoop v'
  | .cons _ _, _ => none

/-- `accessor.Get(s)`: read `s.Get(a.pos)` then run the descent loop. -/
def Accessor.get (a : Accessor) (s : List Value) : Option Value :=
  match rowGet s a.pos with
  | none => none
  | some v => a.getLoop v

/-! ## Type-tree to Avro schema translation -/

/-- Modelled from the spec: the logical type of an input field (the Iceberg
type declarations are outside the file under verification). The twelve
supported kinds are explicit; every other logical type (struct, list, map,
decimal, ...) is collapsed into `unsupported` carrying its `String()`
rendering, which is all the translator observes of it. -/
inductive IcebergType : Type where
  | stringType | int32Type | int64Type | binaryType | booleanType
  | float32Type | float64Type | dateType | timeType
  | timestampType | timestampTzType | uuidType
  | unsupported (name : String)
deriving DecidableEq, Repr

/-- Modelled from the spec: `Type.String()` for the supported kinds (their
standard renderings) and the carried name for everything else. -/
def IcebergType.typeString : IcebergType → String
  | .stringType => "string"
  | .int32Type => "int"
  | .int64Type => "long"
  | .binaryType => "binary"
  | .booleanType => "boolean"
  | .float32Type => "float"
  | .float64Type => "double"
  | .dateType => "date"
  | .timeType => "time"
  | .timestampType => "timestamp"
  | .timestampTzType => "timestamptz"
  | .uuidType => "uuid"
  | .unsupported n => n

/-- Modelled from the spec: a field of the input type tree,
`{field-id, name, logical-type, required, doc}`. -/
structure NestedField : Type where
  ID : Int
  Name : String
  Typ : IcebergType
  Required : Bool
  Doc : String
deriving DecidableEq, Repr

/-- Avro primitive type names used by the translator. -/
inductive AvroType : Type where
  | avString | avInt | avLong | avBytes | avBoolean | avFloat | avDouble
deriving DecidableEq, Repr

/-- Avro logical-type annotations used by the translator. -/
inductive AvroLogical : Type where
  | date | timeMicros | uuid
deriving DecidableEq, Repr

/-- The Avro schemas the translator builds (the relevant fragment of the
external `hamba/avro` library): primitives with an optional logical type and
an optional `adjust-to-utc` prop, the 16-byte fixed for UUID, `null`, unions,
and records of fields. -/
inductive AvroSchema : Type where
  | primitive (t : AvroType) (logical : Option AvroLogical)
      (adjustToUtc : Option Bool)
  | fixedSchema (name : String) (namespc : String) (size : Nat)
      (logical : Option AvroLogical)
  | nullSchema
  | union (branches : List AvroSchema)
  | record (name : String) (namespc : String)
      (fields : List (String × AvroSchema × String × Int))

/-- A named Avro record field as built by `avro.NewField`:
name, schema, doc, and the `field-id` prop. -/
abbrev AvroField : Type := String × AvroSchema × String × Int

/-- `nestedFieldToAvroSchema`: the per-type switch, then the nullability
wrapper `["null", sch]` for non-required fields. The unsupported default
branch fails with an error naming the type; the schema constructors of the
external library succeed on the fixed names used here. -/
def nestedFieldToAvroSchema (f : NestedField) : Except String AvroSchema :=
  let sch : Except String AvroSchema :=
    match f.Typ with
    | .stringType => .ok (.primitive .avString none none)
    | .int32Type => .ok (.primitive .avInt none none)
    | .int64Type => .ok (.primitive .avLong none none)
    | .binaryType => .ok (.primitive .avBytes none none)
    | .booleanType => .ok (.primitive .avBoolean none none)
    | .float32Type => .ok (.primitive .avFloat none none)
    | .float64Type => .ok (.primitive .avDouble none none)
    | .dateType => .ok (.primitive .avInt (some .date) none)
    | .timeType => .ok (.primitive .avLong (some .timeMicros) none)
    | .timestampType =>
        .ok (.primitive .avLong (some .timeMicros) (some false))
    | .timestampTzType =>
        .ok (.primitive .avLong (some .timeMicros) (some true))
    | .uuidType => .ok (.fixedSchema "uuid_fixed" "" 16 (some .uuid))
    | t => .error ("unsupported Iceberg type: " ++ t.typeString)
  match sch with
  | .error e => .error e
  | .ok s =>
      if !f.Required then
        .ok (.union [.nullSchema, s])
      else
        .ok s

/-- `nestedFieldToAvroField`: translate the schema, then build the Avro field
carrying the name, doc and `field-id` prop. -/
def nestedFieldToAvroField (f : NestedField) : Except String AvroField :=
  match nestedFieldToAvroSchema f with
  | .error e => .error e
  | .ok sch => .ok (f.Name, sch, f.Doc, f.ID)

/-- The field loop of `structTypeToAvroPartitionSchema`: translate each field
in order, returning the first error. -/
def fieldsToAvro : List NestedField → Except String (List AvroField)
  | [] => .ok []
  | f :: rest =>
      match nestedFieldToAvroField f with
      | .error e => .error e
      | .ok a =>
          match fieldsToAvro rest with
          | .error e => .error e
          | .ok rest' => .ok (a :: rest')

/-- `structTypeToAvroPartitionSchema`: translate every field of the struct
(a `StructType` is consumed only through its ordered field list), then build
the record schema with the fixed synthetic name `"r102"`. -/
def structTypeToAvroPartitionSchema (st : List NestedField) :
    Except String AvroSchema :=
  match fieldsToAvro st with
  | .error e => .error e
  | .ok aFields => .ok (.record "r102" "" aFields)

/-! ## The record-stream encoder control flow -/

/-- The observable outcome of one `avroEncode` run: the returned error (or
`none` for success), whether `enc.Close()` was reached, and how many records
were encoded before returning. -/
structure EncodeRun : Type where
  err : Option String
  closed : Bool
  encoded : Nat
deriving DecidableEq, Repr

/-- The record loop and final close of `avroEncode`: each `enc.Encode(file)`
is the external library call, modelled by the oracle `encStep`; a failing
record returns its error immediately (without reaching `enc.Close()`), and
after the loop the result of `enc.Close()` (oracle `closeErr`) is returned. -/
def encodeLoop {α : Type} (encStep : α → Option String)
    (closeErr : Option String) : List α → Nat → EncodeRun
  | [], k => ⟨closeErr, true, k⟩
  | v :: rest, k =>
      match encStep v with
      | some e => ⟨some e, false, k⟩
      | none => encodeLoop encStep closeErr rest (k + 1)

/-- `avroEncode`: build the OCF encoder (oracle `newEncErr` for
`ocf.NewEncoderWithSchema`, which receives the schema, sink, format-version
metadata and deflate codec), returning its error unchanged on failure, then
run the record loop over `vals`. -/
def avroEncode {α : Type} (newEncErr : Option String)
    (encStep : α → Option String) (closeErr : Option String)
    (vals : List α) : EncodeRun :=
  match newEncErr with
  | some e => ⟨some e, false, 0⟩
  | none => encodeLoop encStep closeErr vals 0

/-! ## Lemmas about the literal set -/

/-- The map key `addliteral` stores a literal under. -/
def keyOf : Literal → SetKey
  | .binary bytes => .hashKey bytes
  | .fixed bytes => .hashKey bytes
  | l => .litKey l

/-- The entry value `addliteral` stores alongside the key. -/
def origOf (v : Literal) : Option Literal :=
  if v.isByteKind then some v else none

theorem addliteral_eq_mapAssign (l : literalSet) (v : Literal) :
    literalSet.addliteral l v = mapAssign l (keyOf v) (origOf v) := by
  cases v <;> rfl

theorem Literal.equals_iff {a b : Literal} :
    Literal.equals a b = true ↔ a = b := by
  cases a <;> cases b <;> simp [Literal.equals]

theorem Literal.equals_refl (a : Literal) : Literal.equals a a = true :=
  Literal.equals_iff.mpr rfl

theorem mapLookup_mapAssign_self (l : literalSet) (k : SetKey)
    (v : Option Literal) : mapLookup (mapAssign l k v) k = some v := by
  induction l with
  | nil => simp [mapAssign, mapLookup]
  | cons e rest ih =>
    rcases e with ⟨k', v'⟩
    by_cases h : k' = k <;> simp [mapAssign, mapLookup, h, ih]

theorem mapLookup_mapAssign_ne (l : literalSet) {k k' : SetKey}
    (v : Option Literal) (h : k' ≠ k) :
    mapLookup (mapAssign l k v) k' = mapLookup l k' := by
  induction l with
  | nil => simp [mapAssign, mapLookup, Ne.symm h]
  | cons e rest ih =>
    rcases e with ⟨k₀, v₀⟩
    by_cases hk : k₀ = k
    · subst hk
      simp [mapAssign, mapLookup, Ne.symm h]
    · simp only [mapAssign, if_neg hk]
      by_cases hk' : k₀ = k' <;> simp [mapLookup, hk', ih]

theorem mem_of_mapLookup {l : literalSet} {k : SetKey} {v : Option Literal}
    (h : mapLookup l k = some v) : (k, v) ∈ l := by
  induction l with
  | nil => simp [mapLookup] at h
  | cons e rest ih =>
    rcases e with ⟨k', v'⟩
    by_cases hk : k' = k
    · subst hk
      simp [mapLookup] at h
      simp [h]
    · simp only [mapLookup, if_neg hk] at h
      exact List.mem_cons_of_mem _ (ih h)

theorem mapLookup_isSome_of_mem {l : literalSet} {k : SetKey}
    {v : Option Literal} (h : (k, v) ∈ l) : (mapLookup l k).isSome = true := by
  induction l with
  | nil => simp at h
  | cons e rest ih =>
    rcases e with ⟨k', v'⟩
    rcases List.mem_cons.mp h with h | h
    · cases h
      simp [mapLookup]
    · by_cases hk : k' = k <;> simp [mapLookup, hk, ih h]

theorem mapLookup_eq_of_mem_nodup {l : literalSet} {k : SetKey}
    {v : Option Literal} (hnd : (l.map Prod.fst).Nodup) (h : (k, v) ∈ l) :
    mapLookup l k = some v := by
  induction l with
  | nil => simp at h
  | cons e rest ih =>
    rcases e with ⟨k', v'⟩
    simp only [List.map_cons, List.nodup_cons] at hnd
    rcases List.mem_cons.mp h with h | h
    · cases h
      simp [mapLookup]
    · have hk : k' ≠ k := by
        intro hkk
        subst hkk
        exact hnd.1 (List.mem_map.mpr ⟨(k', v), h, rfl⟩)
      simp [mapLookup, hk, ih hnd.2 h]

theorem length_mapAssign_of_isSome {l : literalSet} {k : SetKey}
    (v : Option Literal) (h : (mapLookup l k).isSome = true) :
    (mapAssign l k v).length = l.length := by
  induction l with
  | nil => simp [mapLookup] at h
  | cons e rest ih =>
    rcases e with ⟨k', v'⟩
    by_cases hk : k' = k
    · simp [mapAssign, hk]
    · simp only [mapLookup, if_neg hk] at h
      simp [mapAssign, hk, ih h]

/-- `Contains` inspects the map only at the literal's own key. -/
theorem contains_eq_of_lookup_eq {l₁ l₂ : literalSet} (x : Literal)
    (h : mapLookup l₁ (keyOf x) = mapLookup l₂ (keyOf x)) :
    literalSet.Contains l₁ x = literalSet.Contains l₂ x := by
  cases x <;> simp [literalSet.Contains, keyOf] at h ⊢ <;> rw [h]

theorem contains_lookup_isSome {l : literalSet} {x : Literal}
    (h : literalSet.Contains l x = true) :
    (mapLookup l (keyOf x)).isSome = true := by
  cases x <;>
    simp only [literalSet.Contains, keyOf] at h ⊢ <;>
    first
      | exact h
      | (rcases hl : mapLookup l _ with _ | o <;> simp [hl] at h ⊢)

/-- The literal an entry contributes to `Members`. -/
def memberOf (e : SetKey × Option Literal) : Option Literal :=
  match e.1 with
  | SetKey.litKey k => some k
  | SetKey.hashKey _ => e.2

theorem Members_eq_map (l : literalSet) :
    literalSet.Members l = l.map memberOf := rfl

theorem contains_eq_lookup_of_not_byteKind {x : Literal}
    (hb : x.isByteKind = false) (l : literalSet) :
    literalSet.Contains l x = (mapLookup l (.litKey x)).isSome := by
  cases x <;> first | rfl | simp [Literal.isByteKind] at hb

theorem contains_default_iff (l : literalSet) (hWF : literalSet.WF l)
    {x : Literal} (hb : x.isByteKind = false) :
    (mapLookup l (.litKey x)).isSome = true ↔
      some x ∈ literalSet.Members l := by
  rw [Members_eq_map]
  constructor
  · intro h
    rcases Option.isSome_iff_exists.mp h with ⟨v, hv⟩
    exact List.mem_map.mpr ⟨(SetKey.litKey x, v), mem_of_mapLookup hv, rfl⟩
  · intro h
    rcases List.mem_map.mp h with ⟨⟨k, v⟩, hmem, hproj⟩
    cases k with
    | litKey k =>
      simp only [memberOf, Option.some_inj] at hproj
      subst hproj
      exact mapLookup_isSome_of_mem hmem
    | hashKey bs =>
      have hwf := hWF.2 _ hmem
      simp only [memberOf] at hproj
      rcases hwf with hwf | hwf <;>
        (rw [hwf] at hproj
         have hx := Option.some_inj.mp hproj
         rw [← hx] at hb
         exact absurd hb (by simp [Literal.isByteKind]))

theorem contains_byte_iff (l : literalSet) (hWF : literalSet.WF l)
    {bs : List Nat} {x : Literal} (hx : x = .binary bs ∨ x = .fixed bs) :
    (match mapLookup l (.hashKey bs) with
      | none => false
      | some orig => Literal.equalsOpt x orig) = true ↔
      some x ∈ literalSet.Members l := by
  rw [Members_eq_map]
  constructor
  · intro h
    rcases hl : mapLookup l (.hashKey bs) with _ | orig <;> rw [hl] at h
    · simp at h
    · rcases orig with _ | m
      · simp [Literal.equalsOpt] at h
      · have hm : m = x := (Literal.equals_iff.mp h).symm
        subst hm
        exact List.mem_map.mpr ⟨(SetKey.hashKey bs, some m),
          mem_of_mapLookup hl, rfl⟩
  · intro h
    rcases List.mem_map.mp h with ⟨⟨k, v⟩, hmem, hproj⟩
    cases k with
    | litKey k =>
      have hwf := (hWF.2 _ hmem).2
      simp only [memberOf, Option.some_inj] at hproj
      subst hproj
      rcases hx with hx | hx <;> (subst hx; simp [Literal.isByteKind] at hwf)
    | hashKey bs' =>
      have hwf := hWF.2 _ hmem
      simp only [memberOf] at hproj
      have hxbs' : x = .binary bs' ∨ x = .fixed bs' := by
        rcases hwf with hwf | hwf <;> rw [hwf] at hproj
        · exact Or.inl (Option.some_inj.mp hproj).symm
        · exact Or.inr (Option.some_inj.mp hproj).symm
      have hbs : bs' = bs := by
        rcases hxbs' with h' | h' <;> rcases hx with hx' | hx' <;>
            rw [hx'] at h' <;>
          first
            | (injection h' with hb; exact hb.symm)
            | exact Literal.noConfusion h'
      subst hbs
      rw [mapLookup_eq_of_mem_nodup hWF.1 hmem, hproj]
      simp [Literal.equalsOpt, Literal.equals_refl]

/-- C1. For every well-formed literal set and every literal `lit`,
`Contains lit` returns true exactly when some member `m` of the set
satisfies `m.Equals(lit)`. -/
theorem contains_iff_exists_member_equals (l : literalSet)
    (hWF : literalSet.WF l) (lit : Literal) :
    literalSet.Contains l lit = true ↔
      ∃ m, some m ∈ literalSet.Members l ∧ Literal.equals m lit = true := by
  have hmem : (∃ m, some m ∈ literalSet.Members l ∧
      Literal.equals m lit = true) ↔ some lit ∈ literalSet.Members l := by
    constructor
    · rintro ⟨m, hm, he⟩
      rwa [Literal.equals_iff.mp he] at hm
    · intro h
      exact ⟨lit, h, Literal.equals_refl lit⟩
  rw [hmem]
  cases lit
  case binary bs => exact contains_byte_iff l hWF (Or.inl rfl)
  case fixed bs => exact contains_byte_iff l hWF (Or.inr rfl)
  all_goals exact contains_default_iff l hWF rfl

/-- Witness for C1 on a concrete set holding an `Int32` and a `Binary`
literal. -/
theorem contains_iff_exists_member_equals_witness :
    literalSet.WF (newLiteralSet [.int32 5, .binary [1, 2]]) ∧
      (literalSet.Contains (newLiteralSet [.int32 5, .binary [1, 2]])
          (.binary [1, 2]) = true ↔
        ∃ m, some m ∈ literalSet.Members
            (newLiteralSet [.int32 5, .binary [1, 2]]) ∧
          Literal.equals m (.binary [1, 2]) = true) :=
  ⟨by decide, contains_iff_exists_member_equals _ (by decide) _⟩

/-- C10. For every well-formed literal set, `Members()` has exactly `Len()`
elements and every element is a (non-nil) literal that `Contains` reports as
a member, whether it was stored under its natural key or under a content-hash
key with the original literal kept alongside. -/
theorem members_length_and_contains (l : literalSet)
    (hWF : literalSet.WF l) :
    (literalSet.Members l).length = literalSet.Len l ∧
      ∀ e ∈ literalSet.Members l,
        ∃ m, e = some m ∧ literalSet.Contains l m = true := by
  constructor
  · simp [literalSet.Members, literalSet.Len]
  · intro e he
    rw [Members_eq_map] at he
    rcases List.mem_map.mp he with ⟨⟨k, v⟩, hmem, hproj⟩
    cases k with
    | litKey k =>
      simp only [memberOf] at hproj
      refine ⟨k, hproj.symm, ?_⟩
      have hwf := hWF.2 _ hmem
      rw [contains_eq_lookup_of_not_byteKind hwf.2 l]
      rw [hwf.1] at hmem
      exact mapLookup_isSome_of_mem hmem
    | hashKey bs =>
      simp only [memberOf] at hproj
      have hwf := hWF.2 _ hmem
      have hlk := mapLookup_eq_of_mem_nodup hWF.1 hmem
      rcases hwf with hwf | hwf <;>
        (rw [hwf] at hproj hlk
         refine ⟨_, hproj.symm, ?_⟩
         simp [literalSet.Contains, hlk, Literal.equalsOpt,
           Literal.equals_refl])

/-- Witness for C10 on a concrete set holding one natural-keyed and one
hash-keyed literal. -/
theorem members_length_and_contains_witness :
    literalSet.WF (newLiteralSet [.string "a", .fixed [7]]) ∧
      ((literalSet.Members (newLiteralSet [.string "a", .fixed [7]])).length =
          literalSet.Len (newLiteralSet [.string "a", .fixed [7]]) ∧
        ∀ e ∈ literalSet.Members (newLiteralSet [.string "a", .fixed [7]]),
          ∃ m, e = some m ∧
            literalSet.Contains (newLiteralSet [.string "a", .fixed [7]]) m =
              true) :=
  ⟨by decide, members_length_and_contains _ (by decide)⟩

/-- C6. `Add` is idempotent: when the set already contains a member
Equals-equal to `m`, adding `m'` Equals-equal to it leaves `Len` unchanged;
and Binary (resp. Fixed) literals with identical byte content are one member:
adding the same byte content twice leaves `Len` unchanged after the first
add, and `Contains` on the second instance returns true. -/
theorem add_idempotent_and_byte_content_dedup (l : literalSet)
    (m m' : Literal) (bs : List Nat) :
    (literalSet.Contains l m = true → Literal.equals m' m = true →
      literalSet.Len (literalSet.Add l [m']) = literalSet.Len l) ∧
    (literalSet.Len
          (literalSet.Add (literalSet.Add l [.binary bs]) [.binary bs]) =
        literalSet.Len (literalSet.Add l [.binary bs]) ∧
      literalSet.Contains (literalSet.Add l [.binary bs]) (.binary bs) =
        true) ∧
    (literalSet.Len
          (literalSet.Add (literalSet.Add l [.fixed bs]) [.fixed bs]) =
        literalSet.Len (literalSet.Add l [.fixed bs]) ∧
      literalSet.Contains (literalSet.Add l [.fixed bs]) (.fixed bs) =
        true) := by
  have hadd1 : ∀ (s : literalSet) (v : Literal),
      literalSet.Add s [v] = literalSet.addliteral s v := fun s v => rfl
  refine ⟨?_, ⟨?_, ?_⟩, ⟨?_, ?_⟩⟩
  · intro hc he
    rw [Literal.equals_iff.mp he, hadd1, addliteral_eq_mapAssign]
    exact length_mapAssign_of_isSome _ (contains_lookup_isSome hc)
  · rw [hadd1, hadd1, addliteral_eq_mapAssign, addliteral_eq_mapAssign]
    refine length_mapAssign_of_isSome _ ?_
    rw [show keyOf (Literal.binary bs) = SetKey.hashKey bs from rfl,
      mapLookup_mapAssign_self]
    rfl
  · rw [hadd1, addliteral_eq_mapAssign]
    show (match mapLookup (mapAssign l (keyOf (Literal.binary bs))
        (origOf (.binary bs))) (.hashKey bs) with
      | none => false
      | some orig => Literal.equalsOpt (.binary bs) orig) = true
    rw [show keyOf (Literal.binary bs) = SetKey.hashKey bs from rfl,
      mapLookup_mapAssign_self]
    simp [origOf, Literal.isByteKind, Literal.equalsOpt, Literal.equals_refl]
  · rw [hadd1, hadd1, addliteral_eq_mapAssign, addliteral_eq_mapAssign]
    refine length_mapAssign_of_isSome _ ?_
    rw [show keyOf (Literal.fixed bs) = SetKey.hashKey bs from rfl,
      mapLookup_mapAssign_self]
    rfl
  · rw [hadd1, addliteral_eq_mapAssign]
    show (match mapLookup (mapAssign l (keyOf (Literal.fixed bs))
        (origOf (.fixed bs))) (.hashKey bs) with
      | none => false
      | some orig => Literal.equalsOpt (.fixed bs) orig) = true
    rw [show keyOf (Literal.fixed bs) = SetKey.hashKey bs from rfl,
      mapLookup_mapAssign_self]
    simp [origOf, Literal.isByteKind, Literal.equalsOpt, Literal.equals_refl]

/-- Witness for C6 at a concrete set, member and byte content. -/
theorem add_idempotent_and_byte_content_dedup_witness :
    literalSet.Contains (newLiteralSet [.int64 9]) (.int64 9) = true ∧
      Literal.equals (.int64 9) (.int64 9) = true ∧
      literalSet.Len (literalSet.Add (newLiteralSet [.int64 9]) [.int64 9]) =
        literalSet.Len (newLiteralSet [.int64 9]) :=
  ⟨by decide, by decide,
    (add_idempotent_and_byte_content_dedup (newLiteralSet [.int64 9])
        (.int64 9) (.int64 9) [3]).1 (by decide) (by decide)⟩

/-- Counterexample to C2 as stated: the set seeded with `Fixed [0]` contains
it; adding `Binary [0]`, which is not Equals-equal to it, displaces it (both
literals map to the hash of the same bytes), so the old member is gone. -/
theorem add_can_displace_counterexample :
    literalSet.Contains (newLiteralSet [.fixed [0]]) (.fixed [0]) = true ∧
      Literal.equals (.binary [0]) (.fixed [0]) = false ∧
      literalSet.Contains
        (literalSet.Add (newLiteralSet [.fixed [0]]) [.binary [0]])
        (.fixed [0]) = false := by
  exact ⟨rfl, rfl, rfl⟩

/-- C2 amended: `Add` never removes an existing member `x` provided the added
literals are not Equals-equal to `x` and none of them is a Binary or Fixed
literal occupying the same map key as `x` (a Binary/Fixed literal with the
same byte content when `x` is itself Fixed/Binary). -/
theorem member_preserved_by_add (l : literalSet) (x : Literal)
    (ys : List Literal) (hx : literalSet.Contains l x = true)
    (hys : ∀ y ∈ ys, Literal.equals y x = false ∧ keyOf y ≠ keyOf x) :
    literalSet.Contains (literalSet.Add l ys) x = true := by
  induction ys generalizing l with
  | nil => exact hx
  | cons y ys ih =>
    have hstep : literalSet.Add l (y :: ys) =
        literalSet.Add (literalSet.addliteral l y) ys := rfl
    rw [hstep]
    refine ih _ ?_ (fun z hz => hys z (List.mem_cons_of_mem _ hz))
    have hkey := (hys y (List.mem_cons_self y ys)).2
    rw [@contains_eq_of_lookup_eq (literalSet.addliteral l y) l x
      (by rw [addliteral_eq_mapAssign,
        mapLookup_mapAssign_ne _ _ (Ne.symm hkey)])]
    exact hx

/-- Witness for C2 amended: adding a disjoint literal keeps the member. -/
theorem member_preserved_by_add_witness :
    literalSet.Contains (newLiteralSet [.fixed [0]]) (.fixed [0]) = true ∧
      literalSet.Contains
        (literalSet.Add (newLiteralSet [.fixed [0]]) [.binary [1]])
        (.fixed [0]) = true :=
  ⟨by decide,
    member_preserved_by_add (newLiteralSet [.fixed [0]]) (.fixed [0])
      [.binary [1]] (by decide) (by decide)⟩

/-! ## Accessor claims -/

theorem get_eq_getLoop (a : Accessor) (s : List Value) (v : Value)
    (h : rowGet s a.pos = some v) :
    Accessor.get a s = Accessor.getLoop a v := by
  unfold Accessor.get
  rw [h]

theorem getLoop_cons_row (p : Nat) (rest : Accessor) (cells : List Value) :
    Accessor.getLoop (.cons p rest) (Value.row cells) =
      Accessor.get rest cells := by
  rcases hq : rowGet cells rest.pos with _ | v <;>
    simp [Accessor.getLoop, Accessor.get, hq]

/-- Counterexample to C5 as stated: a two-level accessor over a row whose
first column holds the plain (non-null, non-structured) value `5` reads that
value at a position with a continuation; the claim predicts `Get` returns it
as the final result, but `Get` hits the failing `val.(structLike)` type
assertion and panics (`none`) instead. -/
theorem get_nonstruct_intermediate_counterexample :
    rowGet [Value.int 5] 0 = some (Value.int 5) ∧
      Accessor.get (.cons 0 (.last 0)) [Value.int 5] ≠
        some (Value.int 5) ∧
      Accessor.get (.cons 0 (.last 0)) [Value.int 5] = none := by
  refine ⟨rfl, ?_, rfl⟩
  intro h
  rw [show Accessor.get (.cons 0 (.last 0)) [Value.int 5] = none from rfl]
    at h
  exact Option.noConfusion h

/-- C5 amended: for an accessor with a continuation, if the value read at the
current position is a structured row `Get` recurses into it (the result is
the inner chain's `Get` on that row); if it is null/absent the descent stops
and the final result is null, not an error; a non-null, non-structured value
at a position with a continuation is a fatal contract violation (a panicking
type assertion), not a returned value. -/
theorem get_descends_and_null_terminates (p : Nat) (rest : Accessor)
    (s : List Value) (v : Value) (hread : rowGet s p = some v) :
    (∀ cells, v = Value.row cells →
        Accessor.get (.cons p rest) s = Accessor.get rest cells) ∧
      (v = Value.null → Accessor.get (.cons p rest) s = some Value.null) ∧
      (v ≠ Value.null → (∀ cells, v ≠ Value.row cells) →
        Accessor.get (.cons p rest) s = none) := by
  refine ⟨?_, ?_, ?_⟩
  · rintro cells rfl
    rw [get_eq_getLoop _ _ _ hread, getLoop_cons_row]
  · rintro rfl
    rw [get_eq_getLoop _ _ _ hread]
    rfl
  · intro hnull hrow
    rw [get_eq_getLoop _ _ _ hread]
    cases v with
    | null => exact absurd rfl hnull
    | row cells => exact absurd rfl (hrow cells)
    | int n => rfl
    | str s => rfl

/-- Witness for C5 amended at a concrete nested row: the inner row is
descended into and a null column ends the descent with a null result. -/
theorem get_descends_and_null_terminates_witness :
    rowGet [Value.row [Value.null, Value.int 3]] 0 =
        some (Value.row [Value.null, Value.int 3]) ∧
      Accessor.get (.cons 0 (.last 1)) [Value.row [Value.null, Value.int 3]] =
        Accessor.get (.last 1) [Value.null, Value.int 3] := by
  refine ⟨rfl, ?_⟩
  exact (get_descends_and_null_terminates 0 (.last 1)
    [Value.row [Value.null, Value.int 3]]
    (Value.row [Value.null, Value.int 3]) rfl).1 _ rfl

/-- C8. A two-level accessor (outer position `p`, inner position `q`) over a
row whose column `p` holds a structured row returns exactly what manual
sequential indexing returns: `row.Get(p)` followed by `.Get(q)` on the
nested row. -/
theorem two_level_get_eq_sequential_indexing (p q : Nat) (s : List Value)
    (cells : List Value) (h : rowGet s p = some (Value.row cells)) :
    Accessor.get (.cons p (.last q)) s = rowGet cells q := by
  rw [get_eq_getLoop _ _ _ h, getLoop_cons_row]
  rcases hq : rowGet cells q with _ | v
  · rw [show Accessor.get (.last q) cells =
      (match rowGet cells q with
        | none => none
        | some v => Accessor.getLoop (.last q) v) from rfl, hq]
  · rw [show Accessor.get (.last q) cells =
      (match rowGet cells q with
        | none => none
        | some v => Accessor.getLoop (.last q) v) from rfl, hq]
    rfl

/-- Witness for C8 on a concrete nested row. -/
theorem two_level_get_eq_sequential_indexing_witness :
    rowGet [Value.int 1, Value.row [Value.str "x", Value.int 9]] 1 =
        some (Value.row [Value.str "x", Value.int 9]) ∧
      Accessor.get (.cons 1 (.last 0))
          [Value.int 1, Value.row [Value.str "x", Value.int 9]] =
        rowGet [Value.str "x", Value.int 9] 0 :=
  ⟨rfl, two_level_get_eq_sequential_indexing 1 0 _ _ rfl⟩

/-! ## Translator claims -/

/-- The nullability wrapper applied by the translator: a required field keeps
its schema, a non-required field becomes the two-branch union with the null
branch first. -/
def wrapNullable (required : Bool) (s : AvroSchema) : AvroSchema :=
  if required then s else .union [.nullSchema, s]

/-- C4. Translation wraps a non-required field as a two-branch union with the
null branch first and leaves a required field unwrapped; in particular
`{ (id=1, Int64, required), (id=2, String, optional) }` translates to field 1
unwrapped and field 2 as `["null", "string"]`. -/
theorem optional_wrapped_required_unwrapped (f : NestedField)
    (sch : AvroSchema) :
    (nestedFieldToAvroSchema f = .ok sch →
      (f.Required = true → ∀ bs, sch ≠ .union bs) ∧
      (f.Required = false → ∃ s, sch = .union [.nullSchema, s])) ∧
      structTypeToAvroPartitionSchema
          [⟨1, "f1", .int64Type, true, ""⟩,
            ⟨2, "f2", .stringType, false, ""⟩] =
        .ok (.record "r102" ""
          [("f1", .primitive .avLong none none, "", 1),
            ("f2", .union [.nullSchema, .primitive .avString none none],
              "", 2)]) := by
  refine ⟨?_, rfl⟩
  intro hok
  rcases f with ⟨fid, fname, ftyp, freq, fdoc⟩
  constructor
  · rintro rfl bs hsch
    cases ftyp <;> simp_all [nestedFieldToAvroSchema]
  · rintro rfl
    cases ftyp <;> simp_all [nestedFieldToAvroSchema] <;>
      exact ⟨_, hok.symm⟩

/-- Witness for C4 at a concrete optional field. -/
theorem optional_wrapped_required_unwrapped_witness :
    nestedFieldToAvroSchema ⟨2, "f2", .stringType, false, ""⟩ =
        .ok (.union [.nullSchema, .primitive .avString none none]) ∧
      (⟨2, "f2", .stringType, false, ""⟩ : NestedField).Required = false ∧
      ∃ s, AvroSchema.union [.nullSchema, .primitive .avString none none] =
        .union [.nullSchema, s] :=
  ⟨rfl, rfl,
    ((optional_wrapped_required_unwrapped ⟨2, "f2", .stringType, false, ""⟩
      (.union [.nullSchema, .primitive .avString none none])).1 rfl).2 rfl⟩

theorem nestedFieldToAvroField_error_of_unsupported (f : NestedField)
    (n : String) (h : f.Typ = .unsupported n) :
    nestedFieldToAvroField f = .error ("unsupported Iceberg type: " ++ n) := by
  rcases f with ⟨fid, fname, ftyp, freq, fdoc⟩
  cases h
  rfl

theorem nestedFieldToAvroField_ok_of_supported (f : NestedField)
    (h : ∀ n, f.Typ ≠ .unsupported n) :
    ∃ a, nestedFieldToAvroField f = .ok a := by
  rcases f with ⟨fid, fname, ftyp, freq, fdoc⟩
  cases ftyp <;>
    first
      | exact absurd rfl (h _)
      | (cases freq <;> exact ⟨_, rfl⟩)

theorem structType_error_iff_fields_error (st : List NestedField)
    (e : String) :
    structTypeToAvroPartitionSchema st = .error e ↔
      fieldsToAvro st = .error e := by
  rcases hfa : fieldsToAvro st with e' | fs <;>
    simp [structTypeToAvroPartitionSchema, hfa]

/-- C7. If any field of the input carries a logical type outside the
supported set, translation of the whole field list fails with an error naming
an offending type, and no (partial) schema is returned. -/
theorem unsupported_type_fails_translation (st : List NestedField)
    (h : ∃ f ∈ st, ∃ n, f.Typ = .unsupported n) :
    (∃ f ∈ st, ∃ n, f.Typ = .unsupported n ∧
        structTypeToAvroPartitionSchema st =
          .error ("unsupported Iceberg type: " ++ n)) ∧
      ∀ sch, structTypeToAvroPartitionSchema st ≠ .ok sch := by
  have key : ∃ f ∈ st, ∃ n, f.Typ = .unsupported n ∧
      fieldsToAvro st = .error ("unsupported Iceberg type: " ++ n) := by
    induction st with
    | nil =>
      rcases h with ⟨f, hf, _⟩
      simp at hf
    | cons f rest ih =>
      by_cases hf : ∃ n, f.Typ = .unsupported n
      · rcases hf with ⟨n, hn⟩
        refine ⟨f, List.mem_cons_self f rest, n, hn, ?_⟩
        simp [fieldsToAvro,
          nestedFieldToAvroField_error_of_unsupported f n hn]
      · have hrest : ∃ g ∈ rest, ∃ n, g.Typ = .unsupported n := by
          rcases h with ⟨g, hg, n, hn⟩
          rcases List.mem_cons.mp hg with rfl | hg'
          · exact absurd ⟨n, hn⟩ hf
          · exact ⟨g, hg', n, hn⟩
        rcases ih hrest with ⟨g, hg, n, hn, hfa⟩
        obtain ⟨a, ha⟩ := nestedFieldToAvroField_ok_of_supported f
          (fun n hn' => hf ⟨n, hn'⟩)
        exact ⟨g, List.mem_cons_of_mem f hg, n, hn,
          by simp [fieldsToAvro, ha, hfa]⟩
  rcases key with ⟨f, hf, n, hn, hfa⟩
  have herr := (structType_error_iff_fields_error st _).mpr hfa
  refine ⟨⟨f, hf, n, hn, herr⟩, ?_⟩
  intro sch hsch
  rw [herr] at hsch
  exact Except.noConfusion hsch

/-- Witness for C7 on a field list containing a nested list type. -/
theorem unsupported_type_fails_translation_witness :
    (∃ f ∈ [(⟨1, "ok", IcebergType.int32Type, true, ""⟩ : NestedField),
        ⟨2, "bad", .unsupported "list<int>", true, ""⟩],
      ∃ n, f.Typ = .unsupported n) ∧
      ∀ sch, structTypeToAvroPartitionSchema
          [⟨1, "ok", .int32Type, true, ""⟩,
            ⟨2, "bad", .unsupported "list<int>", true, ""⟩] ≠ .ok sch :=
  ⟨⟨⟨2, "bad", .unsupported "list<int>", true, ""⟩, by simp,
      "list<int>", rfl⟩,
    (unsupported_type_fails_translation _
      ⟨⟨2, "bad", .unsupported "list<int>", true, ""⟩, by simp,
        "list<int>", rfl⟩).2⟩

/-- C9. For two field definitions identical except for Timestamp (no zone)
versus TimestampTz, the translated schemas are both the 64-bit `long` with
the `time-micros` logical annotation, identically wrapped, and differ exactly
in the `adjust-to-utc` prop: `false` versus `true`. -/
theorem timestamp_vs_timestamptz_adjust_to_utc (fid : Int) (fname : String)
    (freq : Bool) (fdoc : String) :
    nestedFieldToAvroSchema ⟨fid, fname, .timestampType, freq, fdoc⟩ =
        .ok (wrapNullable freq
          (.primitive .avLong (some .timeMicros) (some false))) ∧
      nestedFieldToAvroSchema ⟨fid, fname, .timestampTzType, freq, fdoc⟩ =
        .ok (wrapNullable freq
          (.primitive .avLong (some .timeMicros) (some true))) := by
  cases freq <;> exact ⟨rfl, rfl⟩

/-! ## Encoder claims -/

theorem encodeLoop_all_ok {α : Type} (encStep : α → Option String)
    (closeErr : Option String) (vals : List α) (k : Nat)
    (h : ∀ u ∈ vals, encStep u = none) :
    encodeLoop encStep closeErr vals k = ⟨closeErr, true, k + vals.length⟩ := by
  induction vals generalizing k with
  | nil => simp [encodeLoop]
  | cons v rest ih =>
    have hv := h v (List.mem_cons_self v rest)
    rw [show encodeLoop encStep closeErr (v :: rest) k =
        (match encStep v with
          | some e => ⟨some e, false, k⟩
          | none => encodeLoop encStep closeErr rest (k + 1)) from rfl,
      hv, ih (k + 1) (fun u hu => h u (List.mem_cons_of_mem v hu))]
    simp
    omega

theorem encodeLoop_first_failure {α : Type} (encStep : α → Option String)
    (closeErr : Option String) (pre post : List α) (v : α) (e : String)
    (k : Nat) (hpre : ∀ u ∈ pre, encStep u = none)
    (hv : encStep v = some e) :
    encodeLoop encStep closeErr (pre ++ v :: post) k =
      ⟨some e, false, k + pre.length⟩ := by
  induction pre generalizing k with
  | nil =>
    rw [List.nil_append,
      show encodeLoop encStep closeErr (v :: post) k =
        (match encStep v with
          | some e => ⟨some e, false, k⟩
          | none => encodeLoop encStep closeErr post (k + 1)) from rfl,
      hv]
    simp
  | cons u rest ih =>
    have hu := hpre u (List.mem_cons_self u rest)
    rw [List.cons_append,
      show encodeLoop encStep closeErr (u :: (rest ++ v :: post)) k =
        (match encStep u with
          | some e => ⟨some e, false, k⟩
          | none => encodeLoop encStep closeErr (rest ++ v :: post) (k + 1))
        from rfl,
      hu, ih (k + 1) (fun w hw => hpre w (List.mem_cons_of_mem u hw))]
    simp
    omega

/-- Counterexample to C3 as stated: a run in which the single record fails to
encode returns the error (a failure path) but never reaches `enc.Close()`,
so the sink is not released/flushed on that failure path. -/
theorem encode_failure_skips_close_counterexample :
    (avroEncode none (fun _ : Nat => some "boom") none [0]).err =
        some "boom" ∧
      (avroEncode none (fun _ : Nat => some "boom") none [0]).closed =
        false :=
  ⟨rfl, rfl⟩

/-- C3 amended: on the success path every record is encoded and the encoder
is closed (flushing the sink); a single-record encoding failure aborts the
stream at the first failing record — later records are not encoded — and the
error is returned to the caller, but `enc.Close()` is not reached, so the
sink is not flushed on that path. -/
theorem avroEncode_success_closes_and_failure_aborts {α : Type}
    (encStep : α → Option String) (closeErr : Option String)
    (vals pre post : List α) (v : α) (e : String) :
    ((∀ u ∈ vals, encStep u = none) →
      avroEncode none encStep closeErr vals =
        ⟨closeErr, true, vals.length⟩) ∧
      ((∀ u ∈ pre, encStep u = none) → encStep v = some e →
        avroEncode none encStep closeErr (pre ++ v :: post) =
          ⟨some e, false, pre.length⟩) := by
  constructor
  · intro h
    rw [show avroEncode none encStep closeErr vals =
        encodeLoop encStep closeErr vals 0 from rfl,
      encodeLoop_all_ok encStep closeErr vals 0 h]
    simp
  · intro hpre hv
    rw [show avroEncode none encStep closeErr (pre ++ v :: post) =
        encodeLoop encStep closeErr (pre ++ v :: post) 0 from rfl,
      encodeLoop_first_failure encStep closeErr pre post v e 0 hpre hv]
    simp

/-- Witness for C3 amended: a successful two-record run closes the encoder;
a run failing at its second record returns that error unclosed with exactly
one record encoded. -/
theorem avroEncode_success_closes_and_failure_aborts_witness :
    avroEncode none (fun _ : Nat => none) none [5, 6] =
        ⟨none, true, 2⟩ ∧
      avroEncode none (fun n : Nat => if n = 6 then some "bad" else none)
          none [5, 6, 7] = ⟨some "bad", false, 1⟩ :=
  ⟨(avroEncode_success_closes_and_failure_aborts (fun _ : Nat => none) none
      [5, 6] [] [] 0 "x").1 (fun u _ => rfl),
    (avroEncode_success_closes_and_failure_aborts
      (fun n : Nat => if n = 6 then some "bad" else none) none [] [5] [7] 6
      "bad").2 (by decide) (by decide)⟩

end IcebergGo
